import Mathlib

/-
Verification of the aya `xtask` code generator, file
`xtask/src/codegen/aya_bpf.rs`.

The development shallowly embeds:
  * a fragment of the `syn` syntax-tree grammar large enough for the
    declarations the rewriter inspects (path types, bare function types,
    raw pointers, generic arguments, foreign items, items);
  * the `proc_macro2` token rendering used by `quote!{..}.to_string()`
    (tokens separated by single spaces, parenthesis and bracket groups
    printed flush with their delimiters, brace groups printed with an
    inner space on each side);
  * the Rust string primitives `str::starts_with`, `str::contains` and
    `str::replace` (replace-all, leftmost, non-overlapping) used by the
    rewriter, as executable functions over character lists;
  * the mutable visitor `RewriteBpfHelpers` (`visit_item_mut`,
    `visit_foreign_item_static_mut`) as explicit state passing, with
    `Except String` modelling `panic!` / `unwrap` / `unreachable!`;
  * the getter generator `gen_probe_read_getter` together with the
    denotation of the two fixed method templates it emits.

All definitions are executable so that concrete trees can be evaluated.
-/

set_option autoImplicit false

namespace AyaBpf

/-! ## Rust string primitives

`str::starts_with`, `str::contains` and `str::replace` act on bytes; all
text handled by the rewriter is ASCII, so character lists model them
exactly. -/

/-- Model of Rust `str::starts_with`: `isPre pat s` is true when `pat` is
a prefix of `s`. -/
def isPre : List Char → List Char → Bool
  | [], _ => true
  | _ :: _, [] => false
  | p :: ps, c :: cs => p == c && isPre ps cs

/-- Model of Rust `str::contains` with a string pattern: some suffix of
`s` starts with `pat`. -/
def containsSub (pat : List Char) : List Char → Bool
  | [] => isPre pat []
  | c :: cs => isPre pat (c :: cs) || containsSub pat cs

/-- Scanner of `replaceSub`, structurally recursive on a fuel bound:
each step consumes at least one character of the input, so any fuel of
at least the input's length gives the replace-all behavior of Rust
`str::replace` (leftmost, non-overlapping). -/
def replaceGo (pat rep : List Char) : Nat → List Char → List Char
  | _, [] => []
  | 0, l => l
  | fuel + 1, c :: rest =>
    if isPre pat (c :: rest) && !pat.isEmpty then
      rep ++ replaceGo pat rep fuel (rest.drop (pat.length - 1))
    else
      c :: replaceGo pat rep fuel rest

/-- Model of Rust `str::replace`: replace every leftmost, non-overlapping
occurrence of `pat` by `rep`. -/
def replaceSub (pat rep : List Char) (l : List Char) : List Char :=
  replaceGo pat rep l.length l

/-- `str::starts_with` lifted to `String`. -/
def strStarts (s pat : String) : Bool := isPre pat.toList s.toList

/-- `str::contains` lifted to `String`. -/
def strContains (s pat : String) : Bool := containsSub pat.toList s.toList

/-- `str::replace` lifted to `String`. -/
def strReplace (s pat rep : String) : String :=
  (replaceSub pat.toList rep.toList s.toList).asString

/-- `format!` with the fragment placed between comment delimiters, as in
line 161 of the source (the delimiters are split across literals here
only to keep them out of any single string constant). -/
def commentWrap (s : String) : String := "/" ++ "* " ++ s ++ " *" ++ "/"

/-! ## Token rendering

`TokenStream::to_string` prints the tokens of a stream separated by
single spaces.  A parenthesis or bracket group prints as its delimiter
characters flush against the rendered inner stream; a brace group prints
with one extra space inside each delimiter.  `joinToks` is the
space-separated join; each element is either a single token or the
already-rendered text of a group. -/

/-- Space-separated join of rendered tokens. -/
def joinToks : List String → String
  | [] => ""
  | [s] => s
  | s :: rest => s ++ " " ++ joinToks rest

/-- Rendering of a `Punctuated<Ident, Comma>` sequence: identifiers
separated by comma tokens. -/
def joinNames : List String → String
  | [] => ""
  | [s] => s
  | s :: rest => s ++ " , " ++ joinNames rest

/-- Rendering of the `#(#prefix).*` repetition: identifiers separated by
dot tokens. -/
def joinDots : List String → String
  | [] => ""
  | [s] => s
  | s :: rest => s ++ " . " ++ joinDots rest

/-! ## The `syn` type grammar

Exactly the shapes the rewriter distinguishes: path types (with path
segments carrying optional angle-bracketed generic arguments), bare
function types (optional `unsafe`, optional ABI, named-or-unnamed
inputs, optional return type), raw pointer types, and a catch-all of raw
tokens for everything else.  `PathSeq` is non-empty by construction,
mirroring the invariant of parsed `syn::Path` values that makes
`segments.last().unwrap()` at line 127 of the source total. -/

mutual

inductive Ty where
  | path : PathSeq → Ty
  | bareFn : Bool → Option String → FnArgs → Option Ty → Ty
  | ptr : Bool → Ty → Ty
  | other : List String → Ty

inductive PathSeq where
  | base : Seg → PathSeq
  | cons : Seg → PathSeq → PathSeq

inductive Seg where
  | mk : String → Args → Seg

inductive Args where
  | noArgs : Args
  | angled : GArgs → Args

inductive GArgs where
  | nil : GArgs
  | cons : GArg → GArgs → GArgs

inductive GArg where
  | type : Ty → GArg
  | other : List String → GArg

inductive FnArgs where
  | nil : FnArgs
  | cons : FnArg → FnArgs → FnArgs

inductive FnArg where
  | mk : Option String → Ty → FnArg

end

/-- Identifier of a path segment. -/
def Seg.identOf : Seg → String
  | Seg.mk i _ => i

/-- Arguments of a path segment. -/
def Seg.argsOf : Seg → Args
  | Seg.mk _ a => a

/-- Last segment of a (non-empty) path: `path.segments.last().unwrap()`. -/
def PathSeq.lastSeg : PathSeq → Seg
  | PathSeq.base s => s
  | PathSeq.cons _ rest => PathSeq.lastSeg rest

/-- First generic argument, as in `args.first()`. -/
def GArgs.head? : GArgs → Option GArg
  | GArgs.nil => none
  | GArgs.cons g _ => some g

mutual

/-- Rendering of a type, following `ToTokens` for `syn::Type` composed
with `TokenStream::to_string`. -/
def renderTy : Ty → String
  | Ty.path segs => renderPathSeq segs
  | Ty.bareFn uns abi inputs out =>
    joinToks ((if uns then ["unsafe"] else []) ++
      (match abi with
        | some a => ["extern", "\x22" ++ a ++ "\x22"]
        | none => []) ++
      ["fn", "(" ++ renderFnArgs inputs ++ ")"] ++
      (match out with
        | some t => ["->", renderTy t]
        | none => []))
  | Ty.ptr m t => joinToks ["*", if m then "mut" else "const", renderTy t]
  | Ty.other toks => joinToks toks

/-- Rendering of a path: segments separated by `::` tokens. -/
def renderPathSeq : PathSeq → String
  | PathSeq.base s => renderSeg s
  | PathSeq.cons s rest => joinToks [renderSeg s, "::", renderPathSeq rest]

/-- Rendering of one path segment. -/
def renderSeg : Seg → String
  | Seg.mk i Args.noArgs => i
  | Seg.mk i (Args.angled gs) => joinToks [i, "<", renderGArgs gs, ">"]

/-- Rendering of an angle-bracketed generic-argument list. -/
def renderGArgs : GArgs → String
  | GArgs.nil => ""
  | GArgs.cons g GArgs.nil => renderGArg g
  | GArgs.cons g rest => joinToks [renderGArg g, ",", renderGArgs rest]

/-- Rendering of one generic argument. -/
def renderGArg : GArg → String
  | GArg.type t => renderTy t
  | GArg.other toks => joinToks toks

/-- Rendering of a bare-function input list. -/
def renderFnArgs : FnArgs → String
  | FnArgs.nil => ""
  | FnArgs.cons a FnArgs.nil => renderFnArg a
  | FnArgs.cons a rest => joinToks [renderFnArg a, ",", renderFnArgs rest]

/-- Rendering of one bare-function input (`name :` is printed when the
input is named). -/
def renderFnArg : FnArg → String
  | FnArg.mk (some n) t => joinToks [n, ":", renderTy t]
  | FnArg.mk none t => renderTy t

end

/-! ## Foreign items and items -/

/-- `syn::ForeignItemStatic`: the rewriter reads only `ident` and `ty`. -/
structure ForeignItemStatic where
  ident : String
  ty : Ty

/-- `syn::ForeignItem`, restricted to the case the visitor distinguishes
(`Static`) and a catch-all for the kinds it leaves alone. -/
inductive ForeignItem where
  | staticItem : ForeignItemStatic → ForeignItem
  | other : String → ForeignItem

mutual

/-- `syn::Item`, restricted to the kinds relevant to the rewrite:
`ForeignMod` (a foreign-declaration block), `Mod` with inline content
(through which `visit_mut`'s default traversal recurses), `Verbatim`
with an empty token stream (the replacement node), and a catch-all for
items containing no foreign declarations. -/
inductive Item where
  | foreignMod : List ForeignItem → Item
  | modItem : String → Items → Item
  | verbatim : Item
  | other : String → Item

/-- The item list of a `syn::File` or of an inline module. -/
inductive Items where
  | nil : Items
  | cons : Item → Items → Items

end

/-! ## The rewriter

`RewriteBpfHelpers` holds one field, `helpers : Vec<String>`; the state
is that list.  `panic!()`, `unwrap()` on `None` and `unreachable!()`
abort the process, modelled by `Except String`. -/

/-- Lines 136-141 of the source: render
`quote! { #[inline(always)] pub #fn_ty }` and substitute the
identifier after each occurrence of the text `fn (` (Rust
`str::replace` replaces every occurrence). -/
def mkSig (identStr : String) (fnTy : GArg) : String :=
  let tyS := joinToks ["#", "[" ++ joinToks ["inline", "(" ++ "always" ++ ")"] ++ "]",
    "pub", renderGArg fnTy]
  strReplace tyS "fn (" ("fn " ++ identStr ++ " (")

/-- `arg.name.clone().unwrap().0` collected over `f.inputs`: the input
names in declared order, or `none` as soon as one input is unnamed. -/
def namesOf : FnArgs → Option (List String)
  | FnArgs.nil => some []
  | FnArgs.cons (FnArg.mk none _) _ => none
  | FnArgs.cons (FnArg.mk (some n) _) rest =>
    match namesOf rest with
    | none => none
    | some ns => some (n :: ns)

/-- Lines 151-157 of the source: the rendered body block
`{ let f: #fn_ty = ::core::mem::transmute(#call_idx); f(#args) }`.
`call_idx` has Rust type `usize`, so `quote` renders it with the
`usize` suffix. -/
def renderBody (fnTy : GArg) (callIdx : Nat) (args : List String) : String :=
  "\x7b " ++ joinToks ["let", "f", ":", renderGArg fnTy, "=", "::", "core", "::",
    "mem", "::", "transmute", "(" ++ Nat.repr callIdx ++ "usize" ++ ")", ";",
    "f", "(" ++ joinNames args ++ ")"] ++ " \x7d"

/-- Lines 130-158 of the source, for a declaration that passed the
naming/type filter: extract the first generic argument of the last path
segment (`panic!()` when the arguments are not angle-bracketed,
`unwrap` when the list is empty), build the signature text, compute
`call_idx = helpers.len() + 1` from `count = helpers.len()`, collect
the input names (`unreachable!()` when the argument is not a bare
function type, `unwrap` when an input is unnamed), and append the
rendered body.  The result is the fragment before the `printk` check. -/
def mkHelperBase (identStr : String) (sg : Seg) (count : Nat) : Except String String :=
  match Seg.argsOf sg with
  | Args.angled gs =>
    match GArgs.head? gs with
    | none => Except.error "unwrap"
    | some fnTy =>
      let tyS := mkSig identStr fnTy
      let callIdx := count + 1
      match fnTy with
      | GArg.type (Ty.bareFn _ _ inputs _) =>
        match namesOf inputs with
        | none => Except.error "unwrap"
        | some args => Except.ok (tyS ++ renderBody fnTy callIdx args)
      | _ => Except.error "unreachable"
  | _ => Except.error "panic"

/-- Lines 159-162 of the source: a fragment whose text contains
`printk` is wrapped whole in a comment. -/
def printkStep (helper : String) : String :=
  if strContains helper "printk" then commentWrap helper else helper

/-- The complete fragment pushed at line 163. -/
def mkHelper (identStr : String) (sg : Seg) (count : Nat) : Except String String :=
  Except.map printkStep (mkHelperBase identStr sg count)

/-- Lines 123-166 of the source, `visit_foreign_item_static_mut`: when
the static's type is a path whose last segment is named `Option` and
the static's identifier starts with `bpf_`, build a fragment with
`count = helpers.len()` and push it; otherwise leave the state alone.
The item itself is never modified, which the returned
`ForeignItemStatic` records. -/
def visitForeignItemStaticMut (helpers : List String) (st : ForeignItemStatic) :
    Except String (List String × ForeignItemStatic) :=
  match st.ty with
  | Ty.path segs =>
    let identStr := st.ident
    let sg := PathSeq.lastSeg segs
    if strStarts identStr "bpf_" && Seg.identOf sg == "Option" then
      match mkHelper identStr sg helpers.length with
      | Except.error e => Except.error e
      | Except.ok h => Except.ok (helpers ++ [h], st)
    else
      Except.ok (helpers, st)
  | _ => Except.ok (helpers, st)

/-- The default traversal of a foreign item: `ForeignItem::Static` is
dispatched to `visit_foreign_item_static_mut`; the other kinds are
visited without effect. -/
def visitForeignItem (helpers : List String) :
    ForeignItem → Except String (List String × ForeignItem)
  | ForeignItem.staticItem st =>
    match visitForeignItemStaticMut helpers st with
    | Except.error e => Except.error e
    | Except.ok (h, st') => Except.ok (h, ForeignItem.staticItem st')
  | ForeignItem.other x => Except.ok (helpers, ForeignItem.other x)

/-- The default traversal of a foreign-item list, in order. -/
def visitForeignItems (helpers : List String) :
    List ForeignItem → Except String (List String × List ForeignItem)
  | [] => Except.ok (helpers, [])
  | fi :: rest =>
    match visitForeignItem helpers fi with
    | Except.error e => Except.error e
    | Except.ok (h1, fi') =>
      match visitForeignItems h1 rest with
      | Except.error e => Except.error e
      | Except.ok (h2, rest') => Except.ok (h2, fi' :: rest')

/-- Lines 117-122 of the source, `visit_item_mut`, folded over an item
list: each item is first traversed by `visit_mut::visit_item_mut`
(which descends into foreign blocks and inline modules), then a
`ForeignMod` is replaced in place by `Item::Verbatim(TokenStream::new())`. -/
def visitItems (helpers : List String) : Items → Except String (List String × Items)
  | Items.nil => Except.ok (helpers, Items.nil)
  | Items.cons (Item.foreignMod fis) rest =>
    match visitForeignItems helpers fis with
    | Except.error e => Except.error e
    | Except.ok (h1, _) =>
      match visitItems h1 rest with
      | Except.error e => Except.error e
      | Except.ok (h2, rest') => Except.ok (h2, Items.cons Item.verbatim rest')
  | Items.cons (Item.modItem name inner) rest =>
    match visitItems helpers inner with
    | Except.error e => Except.error e
    | Except.ok (h1, inner') =>
      match visitItems h1 rest with
      | Except.error e => Except.error e
      | Except.ok (h2, rest') =>
        Except.ok (h2, Items.cons (Item.modItem name inner') rest')
  | Items.cons Item.verbatim rest =>
    match visitItems helpers rest with
    | Except.error e => Except.error e
    | Except.ok (h2, rest') => Except.ok (h2, Items.cons Item.verbatim rest')
  | Items.cons (Item.other s) rest =>
    match visitItems helpers rest with
    | Except.error e => Except.error e
    | Except.ok (h2, rest') => Except.ok (h2, Items.cons (Item.other s) rest')

/-- Lines 50-53 of the source: a fresh rewriter (`helpers` empty) is run
over the file's items by `visit_file_mut`. -/
def visitFile (items : Items) : Except String (List String × Items) :=
  visitItems [] items

/-! ## Specification-side characterizations

Pure functions over the tree against which the stateful traversal is
proved: the qualifying declarations in traversal order, the per-ordinal
fragment map, and the shape of the rewritten tree. -/

/-- The naming/type filter of line 129: identifier starts with `bpf_`
and the declared type is a path whose last segment is named `Option`. -/
def qualifies (st : ForeignItemStatic) : Bool :=
  match st.ty with
  | Ty.path segs =>
    strStarts st.ident "bpf_" && Seg.identOf (PathSeq.lastSeg segs) == "Option"
  | _ => false

/-- The fragment the rewriter produces for a declaration when the
running count of already-emitted fragments is `count` (before the
`printk` step). -/
def helperBaseOf (st : ForeignItemStatic) (count : Nat) : Except String String :=
  match st.ty with
  | Ty.path segs => mkHelperBase st.ident (PathSeq.lastSeg segs) count
  | _ => Except.error "not a path type"

/-- The fragment the rewriter produces for a declaration when the
running count of already-emitted fragments is `count`. -/
def helperOf (st : ForeignItemStatic) (count : Nat) : Except String String :=
  match st.ty with
  | Ty.path segs => mkHelper st.ident (PathSeq.lastSeg segs) count
  | _ => Except.error "not a path type"

/-- Fragments of a declaration list where the declaration at position
`i` is emitted with running count `n + i` (hence call ordinal
`n + i + 1`); fails at the first declaration whose fragment fails. -/
def mapWithOrd : List ForeignItemStatic → Nat → Except String (List String)
  | [], _ => Except.ok []
  | st :: rest, n =>
    match helperOf st n with
    | Except.error e => Except.error e
    | Except.ok h =>
      match mapWithOrd rest (n + 1) with
      | Except.error e => Except.error e
      | Except.ok hs => Except.ok (h :: hs)

/-- As `mapWithOrd`, but without the `printk` comment step. -/
def mapWithOrdBase : List ForeignItemStatic → Nat → Except String (List String)
  | [], _ => Except.ok []
  | st :: rest, n =>
    match helperBaseOf st n with
    | Except.error e => Except.error e
    | Except.ok h =>
      match mapWithOrdBase rest (n + 1) with
      | Except.error e => Except.error e
      | Except.ok hs => Except.ok (h :: hs)

/-- The qualifying static declarations of a foreign-item list, in
order. -/
def qualsF : List ForeignItem → List ForeignItemStatic
  | [] => []
  | ForeignItem.staticItem st :: rest =>
    if qualifies st then st :: qualsF rest else qualsF rest
  | ForeignItem.other _ :: rest => qualsF rest

/-- The qualifying static declarations of an item list, in the order
the single depth-first traversal encounters them. -/
def qualsItems : Items → List ForeignItemStatic
  | Items.nil => []
  | Items.cons (Item.foreignMod fis) rest => qualsF fis ++ qualsItems rest
  | Items.cons (Item.modItem _ inner) rest => qualsItems inner ++ qualsItems rest
  | Items.cons Item.verbatim rest => qualsItems rest
  | Items.cons (Item.other _) rest => qualsItems rest

/-- The shape of the rewritten item list: every foreign block replaced
in place by the empty verbatim node, inline modules rewritten
recursively, all other items unchanged. -/
def stripItems : Items → Items
  | Items.nil => Items.nil
  | Items.cons (Item.foreignMod _) rest => Items.cons Item.verbatim (stripItems rest)
  | Items.cons (Item.modItem n inner) rest =>
    Items.cons (Item.modItem n (stripItems inner)) (stripItems rest)
  | Items.cons Item.verbatim rest => Items.cons Item.verbatim (stripItems rest)
  | Items.cons (Item.other s) rest => Items.cons (Item.other s) (stripItems rest)

/-- Number of items in a list (children of inline modules not
counted): the positions available at one nesting level. -/
def itemsLen : Items → Nat
  | Items.nil => 0
  | Items.cons _ rest => itemsLen rest + 1

/-- True when no foreign-declaration block occurs anywhere in the item
list, inline modules included. -/
def noForeignMods : Items → Bool
  | Items.nil => true
  | Items.cons (Item.foreignMod _) _ => false
  | Items.cons (Item.modItem _ inner) rest => noForeignMods inner && noForeignMods rest
  | Items.cons Item.verbatim rest => noForeignMods rest
  | Items.cons (Item.other _) rest => noForeignMods rest

/-- Every bare-function input carries a name. -/
def allNamed : FnArgs → Bool
  | FnArgs.nil => true
  | FnArgs.cons (FnArg.mk none _) _ => false
  | FnArgs.cons (FnArg.mk (some _) _) rest => allNamed rest

/-- The shape the rewriter requires of a declaration that passed the
filter: the last path segment carries angle-bracketed arguments, the
first of them is a bare function type, and every input of that function
type is named. -/
def wellShaped (st : ForeignItemStatic) : Bool :=
  match st.ty with
  | Ty.path segs =>
    match Seg.argsOf (PathSeq.lastSeg segs) with
    | Args.angled (GArgs.cons (GArg.type (Ty.bareFn _ _ inputs _)) _) => allNamed inputs
    | _ => false
  | _ => false

/-- The first generic argument of the last path segment of the
declaration's type, when present. -/
def fnTyOf (st : ForeignItemStatic) : Option GArg :=
  match st.ty with
  | Ty.path segs =>
    match Seg.argsOf (PathSeq.lastSeg segs) with
    | Args.angled gs => GArgs.head? gs
    | _ => none
  | _ => none

/-- The declared parameter names of the declaration's extracted
function signature, in declared order. -/
def paramNames (st : ForeignItemStatic) : Option (List String) :=
  match fnTyOf st with
  | some (GArg.type (Ty.bareFn _ _ inputs _)) => namesOf inputs
  | _ => none

/-- True when the item list contains a static declaration (inside a
foreign block, inline modules included) with the given identifier. -/
def containsStaticNamed (name : String) : Items → Bool
  | Items.nil => false
  | Items.cons (Item.foreignMod fis) rest =>
    fis.any (fun fi =>
      match fi with
      | ForeignItem.staticItem st => st.ident == name
      | _ => false) || containsStaticNamed name rest
  | Items.cons (Item.modItem _ inner) rest =>
    containsStaticNamed name inner || containsStaticNamed name rest
  | Items.cons Item.verbatim rest => containsStaticNamed name rest
  | Items.cons (Item.other _) rest => containsStaticNamed name rest

/-! ## The getter generator

`gen_probe_read_getter` (lines 85-110 of the source) maps a field
descriptor to the source text of one accessor method.  The descriptor
type `Getter` is declared in a sibling module; the three fields the
generator reads are its identifier, its declared type and its
access-path (the field named `prefix` in the source; renamed `pfx`
here). -/

/-- The field descriptor consumed by `gen_probe_read_getter`. -/
structure Getter where
  ident : String
  ty : Ty
  pfx : List String

/-- Lines 91-100 of the source: the method emitted for a pointer-typed
field.  The guarded read is `bpf_probe_read`, its `Result` is collapsed
to an `Option` by `.ok()?`, and a successfully-read null pointer is
collapsed to `None` as well. -/
def ptrGetterText (g : Getter) : String :=
  joinToks ["pub", "fn", g.ident, "(" ++ joinToks ["&", "self"] ++ ")", "->",
    "Option", "<", renderTy g.ty, ">",
    "\x7b " ++ joinToks ["let", "v", "=", "unsafe",
      "\x7b " ++ joinToks ["crate", "::", "bpf", "::", "helpers", "::",
        "bpf_probe_read",
        "(" ++ joinToks ["&", joinDots g.pfx, ".", g.ident] ++ ")"] ++ " \x7d",
      ".", "ok", "(" ++ ")", "?", ";",
      "if", "v", ".", "is_null", "(" ++ ")",
      "\x7b " ++ "None" ++ " \x7d", "else",
      "\x7b " ++ joinToks ["Some", "(" ++ "v" ++ ")"] ++ " \x7d"] ++ " \x7d"]

/-- Lines 103-107 of the source: the method emitted for every other
field type; the guarded read's outcome is returned unchanged as an
`Option`. -/
def nonPtrGetterText (g : Getter) : String :=
  joinToks ["pub", "fn", g.ident, "(" ++ joinToks ["&", "self"] ++ ")", "->",
    "Option", "<", renderTy g.ty, ">",
    "\x7b " ++ joinToks ["unsafe",
      "\x7b " ++ joinToks ["crate", "::", "bpf", "::", "helpers", "::",
        "bpf_probe_read",
        "(" ++ joinToks ["&", joinDots g.pfx, ".", g.ident] ++ ")"] ++ " \x7d",
      ".", "ok", "(" ++ ")"] ++ " \x7d"]

/-- Lines 85-110 of the source: dispatch on the field's declared type. -/
def gen_probe_read_getter (g : Getter) : String :=
  match g.ty with
  | Ty.ptr _ _ => ptrGetterText g
  | _ => nonPtrGetterText g

/-! ### Denotation of the emitted getters

`bpf_probe_read` returns `Result<T, c_long>`, modelled as
`Except Int α`.  A raw pointer value is modelled by its address, a
natural number, with `is_null` testing for address `0`. -/

/-- Meaning of the pointer-field template: `.ok()?` turns a failed read
into `None`, then a null result is collapsed to `None`, any other
result is returned in `Some`. -/
def ptrGetterDen (read : Except Int Nat) : Option Nat :=
  match read with
  | Except.error _ => none
  | Except.ok v => if v == 0 then none else some v

/-- Meaning of the non-pointer template: `.ok()` alone. -/
def nonPtrGetterDen {α : Type} (read : Except Int α) : Option α :=
  match read with
  | Except.error _ => none
  | Except.ok v => some v

/-! ## Lemmas about the string primitives -/

theorem isPre_append {p x : List Char} (y : List Char) (h : isPre p x = true) :
    isPre p (x ++ y) = true := by
  induction p generalizing x with
  | nil => simp [isPre]
  | cons a ps ih =>
    cases x with
    | nil => simp [isPre] at h
    | cons c cs =>
      simp only [isPre, Bool.and_eq_true, beq_iff_eq] at h ⊢
      exact ⟨h.1, ih h.2⟩

theorem isPre_self (p y : List Char) : isPre p (p ++ y) = true := by
  induction p with
  | nil => simp [isPre]
  | cons a ps ih => simp [isPre, ih]

theorem containsSub_cons {p l : List Char} (c : Char) (h : containsSub p l = true) :
    containsSub p (c :: l) = true := by
  simp [containsSub, h]

theorem containsSub_of_isPre {p l : List Char} (h : isPre p l = true) :
    containsSub p l = true := by
  cases l with
  | nil => simpa [containsSub] using h
  | cons c cs => simp [containsSub, h]

theorem containsSub_append_right {p b : List Char} (a : List Char)
    (h : containsSub p b = true) : containsSub p (a ++ b) = true := by
  induction a with
  | nil => simpa using h
  | cons c cs ih => exact containsSub_cons c ih

theorem containsSub_infix (p x y : List Char) : containsSub p (x ++ (p ++ y)) = true :=
  containsSub_append_right x (containsSub_of_isPre (isPre_self p y))

theorem containsSub_append_left {p a : List Char} (b : List Char)
    (h : containsSub p a = true) : containsSub p (a ++ b) = true := by
  induction a with
  | nil =>
    cases p with
    | nil => exact containsSub_of_isPre (by simp [isPre])
    | cons q qs => simp [containsSub, isPre] at h
  | cons c cs ih =>
    simp only [containsSub, Bool.or_eq_true] at h
    rcases h with h | h
    · exact containsSub_of_isPre (by simpa using isPre_append b h)
    · exact containsSub_cons c (ih h)

theorem isPre_nil_iff (p : List Char) : isPre p [] = true ↔ p = [] := by
  cases p <;> simp [isPre]

theorem replaceGo_contains {pat : List Char} (rep : List Char) (hne : pat ≠ [])
    (fuel : Nat) :
    ∀ s : List Char, s.length ≤ fuel → containsSub pat s = true →
      containsSub rep (replaceGo pat rep fuel s) = true := by
  induction fuel with
  | zero =>
    intro s hlen h
    cases s with
    | nil =>
      rw [containsSub, isPre_nil_iff] at h
      exact absurd h hne
    | cons c cs => simp at hlen
  | succ fuel ih =>
    intro s hlen h
    cases s with
    | nil =>
      rw [containsSub, isPre_nil_iff] at h
      exact absurd h hne
    | cons c rest =>
      rw [replaceGo]
      by_cases hcond : (isPre pat (c :: rest) && !pat.isEmpty) = true
      · rw [if_pos hcond]
        exact containsSub_of_isPre (isPre_self rep _)
      · rw [if_neg hcond]
        rw [Bool.and_eq_true, Bool.not_eq_true',
          List.isEmpty_eq_false_iff_exists_mem] at hcond
        simp only [containsSub, Bool.or_eq_true] at h
        rcases h with h | h
        · exfalso
          apply hcond
          refine ⟨h, ?_⟩
          cases pat with
          | nil => exact absurd rfl hne
          | cons q qs => exact ⟨q, by simp⟩
        · refine containsSub_cons c (ih rest ?_ h)
          have : rest.length + 1 ≤ fuel + 1 := by simpa using hlen
          omega

theorem replaceSub_contains {pat s : List Char} (rep : List Char) (hne : pat ≠ [])
    (h : containsSub pat s = true) :
    containsSub rep (replaceSub pat rep s) = true :=
  replaceGo_contains rep hne s.length s (Nat.le_refl _) h

theorem strToList_append (a b : String) : (a ++ b).toList = a.toList ++ b.toList := rfl

theorem strToList_asString (l : List Char) : (l.asString).toList = l := rfl

theorem strContains_append_right {b p : String} (a : String)
    (h : strContains b p = true) : strContains (a ++ b) p = true := by
  unfold strContains at h ⊢
  rw [strToList_append]
  exact containsSub_append_right _ h

theorem strContains_append_left {a p : String} (b : String)
    (h : strContains a p = true) : strContains (a ++ b) p = true := by
  unfold strContains at h ⊢
  rw [strToList_append]
  exact containsSub_append_left _ h

theorem strContains_infix (x p y : String) : strContains (x ++ p ++ y) p = true := by
  unfold strContains
  rw [strToList_append, strToList_append, List.append_assoc]
  exact containsSub_infix _ _ _

theorem strContains_self_append (p y : String) : strContains (p ++ y) p = true := by
  have := strContains_infix "" p y
  simpa using this

theorem string_ne_iff_toList {a b : String} (h : a ≠ b) : a.toList ≠ b.toList := by
  intro hl
  cases a
  cases b
  simp only [String.toList] at hl
  exact h (by rw [hl])

theorem strReplace_contains {s pat : String} (rep : String) (hne : pat ≠ "")
    (h : strContains s pat = true) :
    strContains (strReplace s pat rep) rep = true := by
  unfold strContains at h ⊢
  unfold strReplace
  rw [strToList_asString]
  exact replaceSub_contains _ (by simpa using string_ne_iff_toList hne) h

/-! ## The traversal equations

The stateful visitor equals the pure per-ordinal fragment map over the
qualifying declarations in traversal order, with the rewritten tree
given by `stripItems`. -/

theorem mapWithOrd_append (l1 l2 : List ForeignItemStatic) (n : Nat) :
    mapWithOrd (l1 ++ l2) n =
      match mapWithOrd l1 n with
      | Except.error e => Except.error e
      | Except.ok f1 =>
        match mapWithOrd l2 (n + l1.length) with
        | Except.error e => Except.error e
        | Except.ok f2 => Except.ok (f1 ++ f2) := by
  induction l1 generalizing n with
  | nil =>
    simp only [List.nil_append, List.length_nil, Nat.add_zero, mapWithOrd]
    cases mapWithOrd l2 n <;> rfl
  | cons st rest ih =>
    simp only [List.cons_append, mapWithOrd, List.length_cons]
    cases helperOf st n with
    | error e => rfl
    | ok h =>
      simp only [List.append_eq]
      simp only [ih]
      have hn : n + 1 + rest.length = n + (rest.length + 1) := by omega
      rw [hn]
      cases mapWithOrd rest (n + 1) with
      | error e => rfl
      | ok f1 =>
        cases mapWithOrd l2 (n + (rest.length + 1)) <;> rfl

theorem mapWithOrd_length {l : List ForeignItemStatic} {n : Nat} {f : List String}
    (h : mapWithOrd l n = Except.ok f) : f.length = l.length := by
  induction l generalizing n f with
  | nil =>
    simp only [mapWithOrd] at h
    cases h
    rfl
  | cons st rest ih =>
    simp only [mapWithOrd] at h
    cases hh : helperOf st n with
    | error e => rw [hh] at h; cases h
    | ok x =>
      rw [hh] at h
      cases hr : mapWithOrd rest (n + 1) with
      | error e => rw [hr] at h; cases h
      | ok fs =>
        rw [hr] at h
        cases h
        simp [ih hr]

theorem mapWithOrd_get {l : List ForeignItemStatic} {n : Nat} {f : List String}
    (h : mapWithOrd l n = Except.ok f) :
    ∀ i st, l[i]? = some st → ∃ x, f[i]? = some x ∧ helperOf st (n + i) = Except.ok x := by
  induction l generalizing n f with
  | nil => intro i st hst; simp at hst
  | cons d rest ih =>
    intro i st hst
    simp only [mapWithOrd] at h
    cases hh : helperOf d n with
    | error e => rw [hh] at h; cases h
    | ok x =>
      rw [hh] at h
      cases hr : mapWithOrd rest (n + 1) with
      | error e => rw [hr] at h; cases h
      | ok fs =>
        rw [hr] at h
        cases h
        cases i with
        | zero =>
          simp only [List.getElem?_cons_zero, Option.some_inj] at hst
          exact ⟨x, by simp, by rw [hst] at hh; simpa using hh⟩
        | succ j =>
          simp only [List.getElem?_cons_succ] at hst
          obtain ⟨y, hy, hhl⟩ := ih hr j st hst
          exact ⟨y, by simpa using hy, by
            have : n + 1 + j = n + (j + 1) := by omega
            rw [this] at hhl
            exact hhl⟩

theorem visitForeignItems_eq (fis : List ForeignItem) : ∀ helpers : List String,
    visitForeignItems helpers fis =
      match mapWithOrd (qualsF fis) helpers.length with
      | Except.error e => Except.error e
      | Except.ok f => Except.ok (helpers ++ f, fis) := by
  induction fis with
  | nil => intro h; simp [visitForeignItems, qualsF, mapWithOrd]
  | cons fi rest ih =>
    intro h
    cases fi with
    | other s =>
      simp only [visitForeignItems, visitForeignItem, qualsF]
      rw [ih h]
      cases mapWithOrd (qualsF rest) h.length <;> rfl
    | staticItem st =>
      obtain ⟨id, ty⟩ := st
      cases ty with
      | path segs =>
        by_cases hq : (strStarts id "bpf_" &&
            Seg.identOf (PathSeq.lastSeg segs) == "Option") = true
        · have hq' : qualifies ⟨id, Ty.path segs⟩ = true := hq
          simp only [visitForeignItems, visitForeignItem, visitForeignItemStaticMut,
            qualsF, hq, hq', if_true, mapWithOrd, helperOf]
          cases hmk : mkHelper id (PathSeq.lastSeg segs) h.length with
          | error e => rfl
          | ok x =>
            simp only [ih]
            have hlen : (h ++ [x]).length = h.length + 1 := by simp
            rw [hlen]
            cases mapWithOrd (qualsF rest) (h.length + 1) with
            | error e => rfl
            | ok fs => simp
        · have hq' : qualifies ⟨id, Ty.path segs⟩ = false := by
            simpa [qualifies] using hq
          simp only [visitForeignItems, visitForeignItem, visitForeignItemStaticMut,
            qualsF, hq, hq', Bool.false_eq_true, if_false]
          simp only [ih]
          cases mapWithOrd (qualsF rest) h.length <;> rfl
      | bareFn a b c d =>
        simp only [visitForeignItems, visitForeignItem, visitForeignItemStaticMut,
          qualsF, qualifies, Bool.false_eq_true, if_false]
        simp only [ih]
        cases mapWithOrd (qualsF rest) h.length <;> rfl
      | ptr a b =>
        simp only [visitForeignItems, visitForeignItem, visitForeignItemStaticMut,
          qualsF, qualifies, Bool.false_eq_true, if_false]
        simp only [ih]
        cases mapWithOrd (qualsF rest) h.length <;> rfl
      | other toks =>
        simp only [visitForeignItems, visitForeignItem, visitForeignItemStaticMut,
          qualsF, qualifies, Bool.false_eq_true, if_false]
        simp only [ih]
        cases mapWithOrd (qualsF rest) h.length <;> rfl

/-- Master equation of the rewrite pass: the visitor threading the
`helpers` state through an item list equals the pure per-ordinal
fragment map over the qualifying declarations in traversal order, and
rewrites the items to `stripItems`. -/
theorem visitItems_eq (helpers : List String) (items : Items) :
    visitItems helpers items =
      match mapWithOrd (qualsItems items) helpers.length with
      | Except.error e => Except.error e
      | Except.ok f => Except.ok (helpers ++ f, stripItems items) := by
  cases items with
  | nil => simp [visitItems, qualsItems, mapWithOrd, stripItems]
  | cons it rest =>
    cases it with
    | foreignMod fis =>
      rw [visitItems, visitForeignItems_eq fis helpers]
      simp only [qualsItems, stripItems, mapWithOrd_append]
      cases hm1 : mapWithOrd (qualsF fis) helpers.length with
      | error e => rfl
      | ok f1 =>
        dsimp only
        rw [visitItems_eq (helpers ++ f1) rest]
        have hlen : (helpers ++ f1).length = helpers.length + (qualsF fis).length := by
          simp [mapWithOrd_length hm1]
        rw [hlen]
        cases mapWithOrd (qualsItems rest) (helpers.length + (qualsF fis).length) with
        | error e => rfl
        | ok f2 => simp
    | modItem name inner =>
      rw [visitItems, visitItems_eq helpers inner]
      simp only [qualsItems, stripItems, mapWithOrd_append]
      cases hm1 : mapWithOrd (qualsItems inner) helpers.length with
      | error e => rfl
      | ok f1 =>
        dsimp only
        rw [visitItems_eq (helpers ++ f1) rest]
        have hlen : (helpers ++ f1).length = helpers.length + (qualsItems inner).length := by
          simp [mapWithOrd_length hm1]
        rw [hlen]
        cases mapWithOrd (qualsItems rest) (helpers.length + (qualsItems inner).length) with
        | error e => rfl
        | ok f2 => simp
    | verbatim =>
      rw [visitItems, visitItems_eq helpers rest]
      simp only [qualsItems, stripItems]
      cases mapWithOrd (qualsItems rest) helpers.length <;> rfl
    | other s =>
      rw [visitItems, visitItems_eq helpers rest]
      simp only [qualsItems, stripItems]
      cases mapWithOrd (qualsItems rest) helpers.length <;> rfl

/-! ## Containment facts about the rendered fragments -/

theorem strAppend_assoc : ∀ a b c : String, a ++ b ++ c = a ++ (b ++ c)
  | ⟨la⟩, ⟨lb⟩, ⟨lc⟩ => congrArg String.mk (List.append_assoc la lb lc)

theorem isPre_refl (p : List Char) : isPre p p = true := by
  induction p with
  | nil => rfl
  | cons c cs ih => simp [isPre, ih]

theorem strContains_self (p : String) : strContains p p = true :=
  containsSub_of_isPre (isPre_refl _)

theorem strContains_of_within (x y : String) {p s : String}
    (h : strContains s p = true) : strContains (x ++ s ++ y) p = true :=
  strContains_append_left y (strContains_append_right x h)

theorem strContains_fnsp (z : String) :
    strContains ("fn" ++ (" " ++ ("(" ++ z))) "fn (" = true := by
  have heq : "fn" ++ (" " ++ ("(" ++ z)) = "fn (" ++ z := rfl
  rw [heq]
  exact strContains_self_append _ _

theorem joinToks_cons_of_ne (t : String) {l : List String} (h : l ≠ []) :
    joinToks (t :: l) = t ++ " " ++ joinToks l := by
  cases l with
  | nil => exact absurd rfl h
  | cons x xs => rfl

/-- The rendered text of a token list holding the token `fn` directly
followed by a parenthesis group contains the text `fn (`. -/
theorem joinToks_fn_paren (pre : List String) (q : String) (post : List String) :
    strContains (joinToks (pre ++ "fn" :: ("(" ++ q ++ ")") :: post)) "fn (" = true := by
  induction pre with
  | nil =>
    cases post with
    | nil =>
      show strContains ("fn" ++ " " ++ ("(" ++ q ++ ")")) "fn (" = true
      rw [strAppend_assoc, strAppend_assoc]
      exact strContains_fnsp _
    | cons x xs =>
      rw [List.nil_append,
        joinToks_cons_of_ne "fn" (by simp),
        joinToks_cons_of_ne ("(" ++ q ++ ")") (by simp)]
      rw [strAppend_assoc, strAppend_assoc, strAppend_assoc]
      exact strContains_fnsp _
  | cons p ps ih =>
    rw [List.cons_append, joinToks_cons_of_ne p (by simp), strAppend_assoc]
    exact strContains_append_right _ ih

/-- The rendered text of a bare function type contains the text `fn (`. -/
theorem renderTy_bareFn_contains (uns : Bool) (abi : Option String)
    (inputs : FnArgs) (out : Option Ty) :
    strContains (renderTy (Ty.bareFn uns abi inputs out)) "fn (" = true := by
  have hlist : ((if uns then ["unsafe"] else []) ++
      (match abi with
        | some a => ["extern", "\x22" ++ a ++ "\x22"]
        | none => []) ++
      ["fn", "(" ++ renderFnArgs inputs ++ ")"] ++
      (match out with
        | some t => ["->", renderTy t]
        | none => [])) =
      (((if uns then ["unsafe"] else []) ++
        (match abi with
          | some a => ["extern", "\x22" ++ a ++ "\x22"]
          | none => [])) ++
        "fn" :: ("(" ++ renderFnArgs inputs ++ ")") ::
        (match out with
          | some t => ["->", renderTy t]
          | none => [])) := by simp
  rw [renderTy.eq_def]
  dsimp only
  rw [hlist]
  exact joinToks_fn_paren _ _ _

/-- The rendered signature text of line 136-140 contains the text
`fn (` whenever the extracted generic argument is a bare function
type. -/
theorem sigRaw_contains (fnTy : GArg) (uns : Bool) (abi : Option String)
    (inputs : FnArgs) (out : Option Ty)
    (h : fnTy = GArg.type (Ty.bareFn uns abi inputs out)) :
    strContains (joinToks ["#", "[" ++ joinToks ["inline", "(" ++ "always" ++ ")"] ++ "]",
      "pub", renderGArg fnTy]) "fn (" = true := by
  subst h
  rw [joinToks_cons_of_ne _ (by simp), joinToks_cons_of_ne _ (by simp),
    joinToks_cons_of_ne _ (by simp)]
  rw [strAppend_assoc]
  refine strContains_append_right _ ?_
  rw [strAppend_assoc]
  refine strContains_append_right _ ?_
  rw [strAppend_assoc]
  refine strContains_append_right _ ?_
  show strContains (renderTy (Ty.bareFn uns abi inputs out)) "fn (" = true
  exact renderTy_bareFn_contains uns abi inputs out

/-- The substituted signature of line 141 contains `fn `, the original
identifier and ` (` in direct succession. -/
theorem mkSig_contains (identStr : String) (fnTy : GArg) (uns : Bool)
    (abi : Option String) (inputs : FnArgs) (out : Option Ty)
    (h : fnTy = GArg.type (Ty.bareFn uns abi inputs out)) :
    strContains (mkSig identStr fnTy) ("fn " ++ identStr ++ " (") = true := by
  rw [mkSig]
  exact strReplace_contains _ (by decide) (sigRaw_contains fnTy uns abi inputs out h)

/-! ## Success and shape characterizations -/

theorem namesOf_eq_none_iff (i : FnArgs) : namesOf i = none ↔ allNamed i = false := by
  cases i with
  | nil => simp [namesOf, allNamed]
  | cons a rest =>
    have ih := namesOf_eq_none_iff rest
    obtain ⟨nm, t⟩ := a
    cases nm with
    | none => simp [namesOf, allNamed]
    | some n =>
      simp only [namesOf, allNamed]
      cases hr : namesOf rest with
      | none => simpa [hr] using ih
      | some ns =>
        simp only [hr]
        constructor
        · intro hc; cases hc
        · intro hfalse
          rw [← ih] at hfalse
          rw [hfalse] at hr
          cases hr

theorem helperBaseOf_isOk (st : ForeignItemStatic) (n : Nat) :
    (∃ x, helperBaseOf st n = Except.ok x) ↔ wellShaped st = true := by
  obtain ⟨id, ty⟩ := st
  cases ty with
  | path segs =>
    simp only [helperBaseOf, wellShaped, mkHelperBase]
    cases hargs : Seg.argsOf (PathSeq.lastSeg segs) with
    | noArgs => simp
    | angled gs =>
      cases gs with
      | nil => simp [GArgs.head?]
      | cons g grest =>
        simp only [GArgs.head?]
        cases g with
        | other toks => simp
        | type t =>
          cases t with
          | path p => simp
          | ptr a b => simp
          | other toks => simp
          | bareFn uns abi inputs out =>
            cases hn : namesOf inputs with
            | none =>
              have hall : allNamed inputs = false := (namesOf_eq_none_iff inputs).mp hn
              simp [hn, hall]
            | some ns =>
              have hall : allNamed inputs = true := by
                cases hall0 : allNamed inputs with
                | true => rfl
                | false =>
                  rw [← namesOf_eq_none_iff] at hall0
                  rw [hall0] at hn
                  cases hn
              simp [hn, hall]
  | bareFn a b c d => simp [helperBaseOf, wellShaped]
  | ptr a b => simp [helperBaseOf, wellShaped]
  | other toks => simp [helperBaseOf, wellShaped]

theorem helperOf_eq_map (st : ForeignItemStatic) (n : Nat) :
    helperOf st n = Except.map printkStep (helperBaseOf st n) := by
  obtain ⟨id, ty⟩ := st
  cases ty <;> rfl

theorem helperOf_isOk (st : ForeignItemStatic) (n : Nat) :
    (∃ x, helperOf st n = Except.ok x) ↔ wellShaped st = true := by
  rw [← helperBaseOf_isOk st n, helperOf_eq_map]
  cases helperBaseOf st n with
  | error e => simp [Except.map]
  | ok x => simp [Except.map]

theorem mapWithOrd_eq_map_base (l : List ForeignItemStatic) (n : Nat) :
    mapWithOrd l n = Except.map (List.map printkStep) (mapWithOrdBase l n) := by
  induction l generalizing n with
  | nil => simp [mapWithOrd, mapWithOrdBase, Except.map]
  | cons st rest ih =>
    simp only [mapWithOrd, mapWithOrdBase, helperOf_eq_map, ih]
    cases helperBaseOf st n with
    | error e => rfl
    | ok x =>
      cases mapWithOrdBase rest (n + 1) with
      | error e => rfl
      | ok bs => rfl

theorem mapWithOrd_isOk (l : List ForeignItemStatic) (n : Nat) :
    (∃ f, mapWithOrd l n = Except.ok f) ↔ l.all wellShaped = true := by
  induction l generalizing n with
  | nil => simp [mapWithOrd]
  | cons st rest ih =>
    simp only [mapWithOrd, List.all_cons, Bool.and_eq_true]
    constructor
    · rintro ⟨f, hf⟩
      cases hh : helperOf st n with
      | error e => rw [hh] at hf; cases hf
      | ok x =>
        rw [hh] at hf
        cases hr : mapWithOrd rest (n + 1) with
        | error e => rw [hr] at hf; cases hf
        | ok fs =>
          refine ⟨(helperOf_isOk st n).mp ⟨x, hh⟩, ?_⟩
          exact (ih (n + 1)).mp ⟨fs, hr⟩
    · rintro ⟨h1, h2⟩
      obtain ⟨x, hx⟩ := (helperOf_isOk st n).mpr h1
      obtain ⟨fs, hfs⟩ := (ih (n + 1)).mpr h2
      exact ⟨x :: fs, by rw [hx, hfs]⟩

theorem mapWithOrdBase_length {l : List ForeignItemStatic} {n : Nat} {f : List String}
    (h : mapWithOrdBase l n = Except.ok f) : f.length = l.length := by
  induction l generalizing n f with
  | nil =>
    simp only [mapWithOrdBase] at h
    cases h
    rfl
  | cons st rest ih =>
    simp only [mapWithOrdBase] at h
    cases hh : helperBaseOf st n with
    | error e => rw [hh] at h; cases h
    | ok x =>
      rw [hh] at h
      cases hr : mapWithOrdBase rest (n + 1) with
      | error e => rw [hr] at h; cases h
      | ok fs =>
        rw [hr] at h
        cases h
        simp [ih hr]

theorem mapWithOrdBase_get {l : List ForeignItemStatic} {n : Nat} {f : List String}
    (h : mapWithOrdBase l n = Except.ok f) :
    ∀ i st, l[i]? = some st →
      ∃ x, f[i]? = some x ∧ helperBaseOf st (n + i) = Except.ok x := by
  induction l generalizing n f with
  | nil => intro i st hst; simp at hst
  | cons d rest ih =>
    intro i st hst
    simp only [mapWithOrdBase] at h
    cases hh : helperBaseOf d n with
    | error e => rw [hh] at h; cases h
    | ok x =>
      rw [hh] at h
      cases hr : mapWithOrdBase rest (n + 1) with
      | error e => rw [hr] at h; cases h
      | ok fs =>
        rw [hr] at h
        cases h
        cases i with
        | zero =>
          simp only [List.getElem?_cons_zero, Option.some_inj] at hst
          exact ⟨x, by simp, by rw [hst] at hh; simpa using hh⟩
        | succ j =>
          simp only [List.getElem?_cons_succ] at hst
          obtain ⟨y, hy, hhl⟩ := ih hr j st hst
          exact ⟨y, by simpa using hy, by
            have : n + 1 + j = n + (j + 1) := by omega
            rw [this] at hhl
            exact hhl⟩

/-! ## Shape of the rewritten tree -/

theorem stripItems_noForeignMods (items : Items) :
    noForeignMods (stripItems items) = true := by
  cases items with
  | nil => rfl
  | cons it rest =>
    cases it with
    | foreignMod fis =>
      simp only [stripItems, noForeignMods]
      exact stripItems_noForeignMods rest
    | modItem name inner =>
      simp only [stripItems, noForeignMods, Bool.and_eq_true]
      exact ⟨stripItems_noForeignMods inner, stripItems_noForeignMods rest⟩
    | verbatim =>
      simp only [stripItems, noForeignMods]
      exact stripItems_noForeignMods rest
    | other s =>
      simp only [stripItems, noForeignMods]
      exact stripItems_noForeignMods rest

theorem stripItems_len (items : Items) : itemsLen (stripItems items) = itemsLen items := by
  cases items with
  | nil => rfl
  | cons it rest =>
    cases it with
    | foreignMod fis => simp only [stripItems, itemsLen, stripItems_len rest]
    | modItem name inner => simp only [stripItems, itemsLen, stripItems_len rest]
    | verbatim => simp only [stripItems, itemsLen, stripItems_len rest]
    | other s => simp only [stripItems, itemsLen, stripItems_len rest]

/-! ## Structure of an emitted fragment -/

theorem strContains_mid (x y p : String) : strContains (x ++ (p ++ y)) p = true := by
  rw [← strAppend_assoc]
  exact strContains_infix x p y

/-- The comment step never loses a substring of the fragment. -/
theorem printkStep_contains {s p : String} (h : strContains s p = true) :
    strContains (printkStep s) p = true := by
  rw [printkStep]
  by_cases hc : strContains s "printk" = true
  · rw [if_pos hc, commentWrap]
    exact strContains_append_left _ (strContains_append_left _
      (strContains_append_right _ h))
  · rw [if_neg hc]
    exact h

/-- A successful base fragment decomposes into the substituted
signature followed by the rendered body, with the call ordinal
`count + 1` and the declaration's parameter names in declared order. -/
theorem helperBaseOf_ok_shape {st : ForeignItemStatic} {n : Nat} {h : String}
    (hok : helperBaseOf st n = Except.ok h) :
    ∃ fnTy names uns abi inputs out,
      fnTyOf st = some fnTy ∧
      fnTy = GArg.type (Ty.bareFn uns abi inputs out) ∧
      paramNames st = some names ∧
      h = mkSig st.ident fnTy ++ renderBody fnTy (n + 1) names := by
  obtain ⟨id, ty⟩ := st
  cases ty with
  | path segs =>
    simp only [helperBaseOf, mkHelperBase] at hok
    cases hargs : Seg.argsOf (PathSeq.lastSeg segs) with
    | noArgs => rw [hargs] at hok; cases hok
    | angled gs =>
      rw [hargs] at hok
      cases gs with
      | nil => cases hok
      | cons g grest =>
        simp only [GArgs.head?] at hok
        cases g with
        | other toks => cases hok
        | type t =>
          cases t with
          | path p => cases hok
          | ptr a b => cases hok
          | other toks => cases hok
          | bareFn uns abi inputs out =>
            dsimp only at hok
            cases hn : namesOf inputs with
            | none => rw [hn] at hok; cases hok
            | some ns =>
              rw [hn] at hok
              cases hok
              refine ⟨GArg.type (Ty.bareFn uns abi inputs out), ns, uns, abi,
                inputs, out, ?_, rfl, ?_, rfl⟩
              · simp [fnTyOf, hargs, GArgs.head?]
              · simp [paramNames, fnTyOf, hargs, GArgs.head?, hn]
  | bareFn a b c d => cases hok
  | ptr a b => cases hok
  | other toks => cases hok

/-- Folding a token chain around `transmute ( .. usize )` into the
ordinal text. -/
theorem strContains_transmute (r w : String) :
    strContains ("transmute" ++ (" " ++ ("(" ++ (r ++ ("usize" ++ (")" ++ w))))))
      ("transmute (" ++ r ++ "usize)") = true := by
  have hfold : "transmute" ++ (" " ++ ("(" ++ (r ++ ("usize" ++ (")" ++ w))))) =
      ("transmute (" ++ r ++ "usize)") ++ w := by
    apply String.ext
    simp only [String.data_append, List.append_assoc]
    rfl
  rw [hfold]
  exact strContains_self_append _ _

/-- The rendered body contains the call ordinal bit-cast: the text
`transmute (`, the ordinal with its `usize` suffix, and `)`. -/
theorem renderBody_contains_ordinal (fnTy : GArg) (k : Nat) (args : List String) :
    strContains (renderBody fnTy k args)
      ("transmute (" ++ Nat.repr k ++ "usize)") = true := by
  rw [renderBody]
  refine strContains_of_within "\x7b " " \x7d" ?_
  simp only [joinToks, strAppend_assoc]
  iterate 20 refine strContains_append_right _ ?_
  exact strContains_transmute _ _

/-! ## Consequences packaged for the individual specification claims -/

/-- A successfully emitted fragment carries the call ordinal `n + 1`
inside its body text, whether or not it was comment-wrapped. -/
theorem helperOf_ok_contains_ordinal {st : ForeignItemStatic} {n : Nat} {x : String}
    (h : helperOf st n = Except.ok x) :
    strContains x ("transmute (" ++ Nat.repr (n + 1) ++ "usize)") = true := by
  rw [helperOf_eq_map] at h
  cases hb : helperBaseOf st n with
  | error e => rw [hb] at h; cases h
  | ok b =>
    rw [hb] at h
    obtain ⟨fnTy, names, uns, abi, inputs, out, _, _, _, hshape⟩ := helperBaseOf_ok_shape hb
    have hx : x = printkStep b := by
      simpa [Except.map] using h.symm
    rw [hx]
    apply printkStep_contains
    rw [hshape]
    exact strContains_append_right _ (renderBody_contains_ordinal fnTy (n + 1) names)

/-- Success of the whole pass exposes the fragment list as the pure
per-ordinal map over the qualifying declarations. -/
theorem visitFile_ok_mapWithOrd {items : Items} {hs : List String} {items' : Items}
    (h : visitFile items = Except.ok (hs, items')) :
    mapWithOrd (qualsItems items) 0 = Except.ok hs ∧ items' = stripItems items := by
  rw [visitFile, visitItems_eq] at h
  cases hm : mapWithOrd (qualsItems items) 0 with
  | error e =>
    rw [show (([] : List String).length) = 0 from rfl, hm] at h
    cases h
  | ok f =>
    rw [show (([] : List String).length) = 0 from rfl, hm] at h
    simp only [List.nil_append] at h
    cases h
    exact ⟨rfl, rfl⟩

/-- C1: the rewrite pass emits exactly one fragment per qualifying
declaration (identifier starting with `bpf_`, declared type a path
ending in `Option`), in traversal order, and the call ordinals baked
into the fragments are exactly 1..N with no gaps or repeats: the
fragment at position `i` is produced with running count `i`, so its
body carries the ordinal `i + 1`. -/
theorem claim_C1 (items : Items) (hs : List String) (items' : Items)
    (h : visitFile items = Except.ok (hs, items')) :
    hs.length = (qualsItems items).length ∧
    mapWithOrd (qualsItems items) 0 = Except.ok hs ∧
    ∀ i st, (qualsItems items)[i]? = some st →
      ∃ x, hs[i]? = some x ∧ helperOf st i = Except.ok x ∧
        strContains x ("transmute (" ++ Nat.repr (i + 1) ++ "usize)") = true := by
  obtain ⟨hm, _⟩ := visitFile_ok_mapWithOrd h
  refine ⟨mapWithOrd_length hm, hm, ?_⟩
  intro i st hst
  obtain ⟨x, hx, hh⟩ := mapWithOrd_get hm i st hst
  have hzi : 0 + i = i := by omega
  rw [hzi] at hh
  exact ⟨x, hx, hh, helperOf_ok_contains_ordinal hh⟩

/-- C4: a fragment is comment-wrapped exactly when its rendered text
contains the substring `printk`: at every position of the produced
list, the fragment equals the plain rendering when that rendering does
not contain `printk`, and equals the comment-wrapped rendering when it
does. -/
theorem claim_C4 (items : Items) (hs : List String) (items' : Items)
    (h : visitFile items = Except.ok (hs, items')) :
    ∀ i st, (qualsItems items)[i]? = some st →
      ∃ b, helperBaseOf st i = Except.ok b ∧
        ((strContains b "printk" = true ∧ hs[i]? = some (commentWrap b)) ∨
         (strContains b "printk" = false ∧ hs[i]? = some b)) := by
  obtain ⟨hm, _⟩ := visitFile_ok_mapWithOrd h
  rw [mapWithOrd_eq_map_base] at hm
  cases hb : mapWithOrdBase (qualsItems items) 0 with
  | error e => rw [hb] at hm; cases hm
  | ok bs =>
    rw [hb] at hm
    have hhs : hs = bs.map printkStep := by
      simpa [Except.map] using hm.symm
    intro i st hst
    obtain ⟨b, hbi, hhb⟩ := mapWithOrdBase_get hb i st hst
    have hzi : 0 + i = i := by omega
    rw [hzi] at hhb
    refine ⟨b, hhb, ?_⟩
    have hsi : hs[i]? = some (printkStep b) := by
      rw [hhs, List.getElem?_map, hbi]
      rfl
    by_cases hp : strContains b "printk" = true
    · left
      refine ⟨hp, ?_⟩
      rw [hsi, printkStep, if_pos hp]
    · right
      refine ⟨by simpa using hp, ?_⟩
      rw [hsi, printkStep, if_neg hp]

/-- C7: after the pass every foreign-declaration block has been
replaced in place by the empty verbatim node: the rewritten items are
exactly `stripItems` of the input, the item count at every nesting
level is unchanged, and no foreign block remains anywhere. -/
theorem claim_C7 (items : Items) (hs : List String) (items' : Items)
    (h : visitFile items = Except.ok (hs, items')) :
    items' = stripItems items ∧ itemsLen items' = itemsLen items ∧
    noForeignMods items' = true := by
  obtain ⟨_, hstrip⟩ := visitFile_ok_mapWithOrd h
  refine ⟨hstrip, ?_, ?_⟩
  · rw [hstrip]
    exact stripItems_len items
  · rw [hstrip]
    exact stripItems_noForeignMods items

/-- C8: the pass aborts exactly when some declaration that passes the
naming/type filter violates the expected shape (no angle-bracketed
generic argument, first generic argument not a bare function type, or
some input unnamed); when every qualifying declaration is well shaped
the pass completes. -/
theorem claim_C8 (items : Items) :
    (∃ r, visitFile items = Except.ok r) ↔
      (qualsItems items).all wellShaped = true := by
  rw [← mapWithOrd_isOk (qualsItems items) 0]
  rw [visitFile, visitItems_eq]
  rw [show (([] : List String).length) = 0 from rfl]
  cases hm : mapWithOrd (qualsItems items) 0 with
  | error e =>
    constructor
    · rintro ⟨r, hr⟩; cases hr
    · rintro ⟨f, hf⟩; cases hf
  | ok f =>
    constructor
    · intro _; exact ⟨f, rfl⟩
    · intro _; exact ⟨([] ++ f, stripItems items), rfl⟩

/-- C10: a `printk` fragment still consumes its ordinal: the pass's
fragment list is the pointwise comment step applied to the plain
pipeline's list, both lists have the same length, and in both lists the
fragment at position `i` carries ordinal `i + 1`, so comment-wrapping a
fragment never changes any subsequent ordinal. -/
theorem claim_C10 (items : Items) (hs : List String) (items' : Items)
    (h : visitFile items = Except.ok (hs, items')) :
    ∃ bs, mapWithOrdBase (qualsItems items) 0 = Except.ok bs ∧
      hs = bs.map printkStep ∧ bs.length = hs.length ∧
      ∀ i x, hs[i]? = some x →
        strContains x ("transmute (" ++ Nat.repr (i + 1) ++ "usize)") = true := by
  obtain ⟨hm, _⟩ := visitFile_ok_mapWithOrd h
  have hget := mapWithOrd_get hm
  have hlen0 := mapWithOrd_length hm
  rw [mapWithOrd_eq_map_base] at hm
  cases hb : mapWithOrdBase (qualsItems items) 0 with
  | error e => rw [hb] at hm; cases hm
  | ok bs =>
    rw [hb] at hm
    have hhs : hs = bs.map printkStep := by
      simpa [Except.map] using hm.symm
    refine ⟨bs, rfl, hhs, by rw [hhs]; simp, ?_⟩
    intro i x hx
    have hlen : i < hs.length := by
      by_contra hge
      rw [List.getElem?_eq_none (by omega)] at hx
      cases hx
    have hql : i < (qualsItems items).length := by omega
    have hst : ∃ st, (qualsItems items)[i]? = some st := by
      rw [List.getElem?_eq_getElem hql]
      exact ⟨_, rfl⟩
    obtain ⟨st, hst⟩ := hst
    obtain ⟨x', hx', hh⟩ := hget i st hst
    rw [hx] at hx'
    have hxx : x' = x := by
      injection hx' with hx2
      exact hx2.symm
    rw [hxx] at hh
    have hzi : 0 + i = i := by omega
    rw [hzi] at hh
    exact helperOf_ok_contains_ordinal hh

/-! ## Remaining claims -/

/-- C9: every emitted wrapper's body block binds the ordinal
`i + 1` bit-cast (`transmute`) to the extracted function-pointer type
and invokes it with the declaration's parameter names forwarded in
declared order; the fragment at position `i` contains exactly that
rendered body block. -/
theorem claim_C9 (items : Items) (hs : List String) (items' : Items)
    (h : visitFile items = Except.ok (hs, items')) :
    ∀ i st, (qualsItems items)[i]? = some st →
      ∃ fnTy names, fnTyOf st = some fnTy ∧ paramNames st = some names ∧
        ∃ x, hs[i]? = some x ∧
          strContains x (renderBody fnTy (i + 1) names) = true := by
  obtain ⟨hm, _⟩ := visitFile_ok_mapWithOrd h
  intro i st hst
  obtain ⟨x, hx, hh⟩ := mapWithOrd_get hm i st hst
  have hzi : 0 + i = i := by omega
  rw [hzi] at hh
  rw [helperOf_eq_map] at hh
  cases hb : helperBaseOf st i with
  | error e => rw [hb] at hh; cases hh
  | ok b =>
    rw [hb] at hh
    obtain ⟨fnTy, names, uns, abi, inputs, out, hft, hbare, hpn, hshape⟩ :=
      helperBaseOf_ok_shape hb
    refine ⟨fnTy, names, hft, hpn, x, hx, ?_⟩
    have hxb : x = printkStep b := by
      simpa [Except.map] using hh.symm
    rw [hxb]
    apply printkStep_contains
    rw [hshape]
    exact strContains_append_right _ (strContains_self _)

/-- C2 (amended): the static visitor leaves every declaration that does
not match the naming/type filter unmodified and emits no wrapper for
it; the declaration nevertheless does not remain in the rewritten tree,
because its enclosing foreign block is removed whole. -/
theorem claim_C2_amended (helpers : List String) (st : ForeignItemStatic)
    (h : qualifies st = false) :
    visitForeignItemStaticMut helpers st = Except.ok (helpers, st) := by
  obtain ⟨id, ty⟩ := st
  cases ty with
  | path segs =>
    have hq : (strStarts id "bpf_" &&
        Seg.identOf (PathSeq.lastSeg segs) == "Option") = false := h
    simp only [visitForeignItemStaticMut, hq, Bool.false_eq_true, if_false]
  | bareFn a b c d => rfl
  | ptr a b => rfl
  | other toks => rfl

/-- A foreign static declaration that does not match the filter:
`bar_baz : i32`. -/
def barDecl : ForeignItemStatic :=
  ⟨"bar_baz", Ty.path (PathSeq.base (Seg.mk "i32" Args.noArgs))⟩

/-- A tree holding one foreign block with only the non-matching
declaration. -/
def treeC2 : Items :=
  Items.cons (Item.foreignMod [ForeignItem.staticItem barDecl]) Items.nil

/-- C2 (counterexample): the non-matching declaration `bar_baz : i32`
does not remain present in the rewritten tree: the whole foreign block
is replaced by the empty verbatim node, so the rewritten tree contains
no static named `bar_baz` although the input tree did (and no wrapper
is emitted). -/
theorem claim_C2_counterexample :
    qualifies barDecl = false ∧
    containsStaticNamed "bar_baz" treeC2 = true ∧
    visitFile treeC2 = Except.ok ([], Items.cons Item.verbatim Items.nil) ∧
    containsStaticNamed "bar_baz" (Items.cons Item.verbatim Items.nil) = false :=
  ⟨rfl, rfl, rfl, rfl⟩

/-- C3 (amended): the identifier is substituted after every occurrence
of the text `fn (` in the rendered signature; in particular the emitted
fragment always contains `fn `, the original identifier and ` (` in
direct succession, so it declares a function with the original name. -/
theorem claim_C3_amended (items : Items) (hs : List String) (items' : Items)
    (h : visitFile items = Except.ok (hs, items')) :
    ∀ (i : Nat) (st : ForeignItemStatic), (qualsItems items)[i]? = some st →
      ∃ x, hs[i]? = some x ∧
        strContains x ("fn " ++ st.ident ++ " (") = true := by
  obtain ⟨hm, _⟩ := visitFile_ok_mapWithOrd h
  intro i st hst
  obtain ⟨x, hx, hh⟩ := mapWithOrd_get hm i st hst
  have hzi : 0 + i = i := by omega
  rw [hzi] at hh
  rw [helperOf_eq_map] at hh
  cases hb : helperBaseOf st i with
  | error e => rw [hb] at hh; cases hh
  | ok b =>
    rw [hb] at hh
    obtain ⟨fnTy, names, uns, abi, inputs, out, hft, hbare, hpn, hshape⟩ :=
      helperBaseOf_ok_shape hb
    refine ⟨x, hx, ?_⟩
    have hxb : x = printkStep b := by
      simpa [Except.map] using hh.symm
    rw [hxb]
    apply printkStep_contains
    rw [hshape]
    exact strContains_append_left _
      (mkSig_contains st.ident fnTy uns abi inputs out hbare)

/-- A qualifying declaration whose extracted signature has a named
parameter of bare-function type:
`bpf_x : Option<fn(cb : fn(u32))>`. -/
def bpfXDecl : ForeignItemStatic :=
  ⟨"bpf_x", Ty.path (PathSeq.base (Seg.mk "Option" (Args.angled (GArgs.cons
    (GArg.type (Ty.bareFn false none
      (FnArgs.cons (FnArg.mk (some "cb")
        (Ty.bareFn false none
          (FnArgs.cons (FnArg.mk none
            (Ty.path (PathSeq.base (Seg.mk "u32" Args.noArgs)))) FnArgs.nil)
          none)) FnArgs.nil)
      none)) GArgs.nil))))⟩

/-- A tree holding one foreign block with the declaration above. -/
def treeC3 : Items :=
  Items.cons (Item.foreignMod [ForeignItem.staticItem bpfXDecl]) Items.nil

/-- The fragment the rewriter emits for `bpf_x`. -/
def fragC3 : String :=
  "# [inline (always)] pub fn bpf_x (cb : fn bpf_x (u32))\x7b let f : fn (cb : fn (u32)) = :: core :: mem :: transmute (1usize) ; f (cb) \x7d"

/-- C3 (counterexample): the replacement of line 141 substitutes the
identifier at every occurrence of the text `fn (`, not only immediately
after the extracted signature's function keyword: for
`bpf_x : Option<fn(cb : fn(u32))>` the emitted fragment also holds the
identifier inside the parameter's own bare-function type, reading
`cb : fn bpf_x (u32)`. -/
theorem claim_C3_counterexample :
    visitFile treeC3 =
      Except.ok ([fragC3], Items.cons Item.verbatim Items.nil) ∧
    strContains fragC3 "cb : fn bpf_x (u32)" = true :=
  ⟨rfl, rfl⟩

/-- C5: the getter generator emits the pointer template exactly for
pointer-typed fields, and that template's result is `none` both when
the guarded read fails and when it succeeds with a null pointer, and is
`some v` exactly when the read succeeds with a non-null `v`. -/
theorem claim_C5 (g : Getter) (m : Bool) (e : Ty) (h : g.ty = Ty.ptr m e) :
    gen_probe_read_getter g = ptrGetterText g ∧
    ∀ read : Except Int Nat,
      (ptrGetterDen read = none ↔
        (∃ err, read = Except.error err) ∨ read = Except.ok 0) ∧
      ∀ v, ptrGetterDen read = some v ↔ read = Except.ok v ∧ v ≠ 0 := by
  constructor
  · obtain ⟨gi, gty, gp⟩ := g
    simp only at h
    subst h
    rfl
  · intro read
    constructor
    · cases read with
      | error err =>
        constructor
        · intro _
          exact Or.inl ⟨err, rfl⟩
        · intro _
          rfl
      | ok v =>
        by_cases hv : v = 0
        · subst hv
          constructor
          · intro _
            exact Or.inr rfl
          · intro _
            rfl
        · have hbf : (v == 0) = false := by simpa using hv
          constructor
          · intro hc
            exfalso
            have hc2 : (if v == 0 then none else some v) = (none : Option Nat) := hc
            rw [hbf] at hc2
            simp at hc2
          · rintro (⟨err, herr⟩ | h0)
            · cases herr
            · exfalso
              injection h0 with h0v
              exact hv h0v
    · intro v
      cases read with
      | error err =>
        constructor
        · intro hc
          exact Option.noConfusion hc
        · rintro ⟨hc, _⟩
          cases hc
      | ok w =>
        by_cases hw : w = 0
        · subst hw
          constructor
          · intro hc
            exact Option.noConfusion hc
          · rintro ⟨hc, hv0⟩
            injection hc with hc0
            exact absurd hc0.symm hv0
        · have hbf : (w == 0) = false := by simpa using hw
          have hden : ptrGetterDen (Except.ok w) = some w := by
            show (if w == 0 then none else some w) = some w
            rw [hbf]
            rfl
          rw [hden]
          constructor
          · intro hc
            injection hc with hwv
            subst hwv
            exact ⟨rfl, hw⟩
          · rintro ⟨hc, _⟩
            injection hc with hwv
            rw [hwv]

/-- C6: for every non-pointer-typed field the generator emits the plain
template, whose result mirrors the guarded read exactly: `some` of the
value on success, `none` on failure, with no further filtering. -/
theorem claim_C6 (g : Getter) (h : ∀ m e, g.ty ≠ Ty.ptr m e) :
    gen_probe_read_getter g = nonPtrGetterText g ∧
    ∀ (α : Type) (read : Except Int α),
      nonPtrGetterDen read = read.toOption ∧
      (∀ v, read = Except.ok v → nonPtrGetterDen read = some v) ∧
      ∀ err, read = Except.error err → nonPtrGetterDen read = none := by
  constructor
  · obtain ⟨gi, gty, gp⟩ := g
    cases gty with
    | path segs => rfl
    | bareFn a b c d => rfl
    | ptr a b => exact absurd rfl (h a b)
    | other toks => rfl
  · intro α read
    refine ⟨?_, ?_, ?_⟩
    · cases read <;> rfl
    · intro v hv; rw [hv]; rfl
    · intro err he; rw [he]; rfl

/-! ## Witness inputs

A concrete tree holding one foreign block with a `printk` helper and a
non-static foreign item, one unrelated item, and a nested inline module
with a second foreign block holding an ordinary helper. -/

/-- `bpf_trace_printk : Option<unsafe extern "C" fn(fmt : *const c_char) -> c_long>`. -/
def printkDecl : ForeignItemStatic :=
  ⟨"bpf_trace_printk", Ty.path (PathSeq.base (Seg.mk "Option" (Args.angled (GArgs.cons
    (GArg.type (Ty.bareFn true (some "C")
      (FnArgs.cons (FnArg.mk (some "fmt")
        (Ty.ptr false (Ty.path (PathSeq.base (Seg.mk "c_char" Args.noArgs))))) FnArgs.nil)
      (some (Ty.path (PathSeq.base (Seg.mk "c_long" Args.noArgs)))))) GArgs.nil))))⟩

/-- `bpf_foo : Option<unsafe extern "C" fn(a : i32) -> i32>`. -/
def fooDecl : ForeignItemStatic :=
  ⟨"bpf_foo", Ty.path (PathSeq.base (Seg.mk "Option" (Args.angled (GArgs.cons
    (GArg.type (Ty.bareFn true (some "C")
      (FnArgs.cons (FnArg.mk (some "a")
        (Ty.path (PathSeq.base (Seg.mk "i32" Args.noArgs)))) FnArgs.nil)
      (some (Ty.path (PathSeq.base (Seg.mk "i32" Args.noArgs)))))) GArgs.nil))))⟩

/-- The witness tree. -/
def treeMain : Items :=
  Items.cons (Item.foreignMod [ForeignItem.staticItem printkDecl, ForeignItem.other "ignored"])
    (Items.cons (Item.other "struct sk_buff")
      (Items.cons (Item.modItem "inner"
        (Items.cons (Item.foreignMod [ForeignItem.staticItem fooDecl]) Items.nil))
        Items.nil))

/-- The fragments the pass emits for `treeMain`: the `printk` helper is
comment-wrapped and consumes ordinal 1; the ordinary helper receives
ordinal 2. -/
def hsMain : List String :=
  ["/" ++ "* # [inline (always)] pub unsafe extern \x22C\x22 fn bpf_trace_printk (fmt : * const c_char) -> c_long\x7b let f : unsafe extern \x22C\x22 fn (fmt : * const c_char) -> c_long = :: core :: mem :: transmute (1usize) ; f (fmt) \x7d *" ++ "/",
   "# [inline (always)] pub unsafe extern \x22C\x22 fn bpf_foo (a : i32) -> i32\x7b let f : unsafe extern \x22C\x22 fn (a : i32) -> i32 = :: core :: mem :: transmute (2usize) ; f (a) \x7d"]

/-- The rewritten items for `treeMain`: both foreign blocks replaced in
place by the empty verbatim node. -/
def treeMainOut : Items :=
  Items.cons Item.verbatim
    (Items.cons (Item.other "struct sk_buff")
      (Items.cons (Item.modItem "inner" (Items.cons Item.verbatim Items.nil))
        Items.nil))

theorem claim_C1_witness :
    visitFile treeMain = Except.ok (hsMain, treeMainOut) ∧
    (hsMain.length = (qualsItems treeMain).length ∧
     mapWithOrd (qualsItems treeMain) 0 = Except.ok hsMain ∧
     ∀ i st, (qualsItems treeMain)[i]? = some st →
       ∃ x, hsMain[i]? = some x ∧ helperOf st i = Except.ok x ∧
         strContains x ("transmute (" ++ Nat.repr (i + 1) ++ "usize)") = true) :=
  ⟨rfl, claim_C1 treeMain hsMain treeMainOut rfl⟩

theorem claim_C2_witness :
    qualifies barDecl = false ∧
    visitForeignItemStaticMut ["prior"] barDecl = Except.ok (["prior"], barDecl) :=
  ⟨rfl, claim_C2_amended ["prior"] barDecl rfl⟩

theorem claim_C3_witness :
    visitFile treeC3 = Except.ok ([fragC3], Items.cons Item.verbatim Items.nil) ∧
    (∀ (i : Nat) (st : ForeignItemStatic), (qualsItems treeC3)[i]? = some st →
      ∃ x, [fragC3][i]? = some x ∧
        strContains x ("fn " ++ st.ident ++ " (") = true) :=
  ⟨rfl, claim_C3_amended treeC3 [fragC3] (Items.cons Item.verbatim Items.nil) rfl⟩

theorem claim_C4_witness :
    visitFile treeMain = Except.ok (hsMain, treeMainOut) ∧
    (∀ i st, (qualsItems treeMain)[i]? = some st →
      ∃ b, helperBaseOf st i = Except.ok b ∧
        ((strContains b "printk" = true ∧ hsMain[i]? = some (commentWrap b)) ∨
         (strContains b "printk" = false ∧ hsMain[i]? = some b))) :=
  ⟨rfl, claim_C4 treeMain hsMain treeMainOut rfl⟩

/-- A pointer-typed field descriptor. -/
def gPtr : Getter :=
  ⟨"next_task", Ty.ptr true (Ty.path (PathSeq.base (Seg.mk "task_struct" Args.noArgs))),
    ["self", "inner"]⟩

theorem claim_C5_witness :
    gPtr.ty = Ty.ptr true (Ty.path (PathSeq.base (Seg.mk "task_struct" Args.noArgs))) ∧
    (gen_probe_read_getter gPtr = ptrGetterText gPtr ∧
     ∀ read : Except Int Nat,
       (ptrGetterDen read = none ↔
         (∃ err, read = Except.error err) ∨ read = Except.ok 0) ∧
       ∀ v, ptrGetterDen read = some v ↔ read = Except.ok v ∧ v ≠ 0) :=
  ⟨rfl, claim_C5 gPtr true (Ty.path (PathSeq.base (Seg.mk "task_struct" Args.noArgs))) rfl⟩

/-- A non-pointer-typed field descriptor. -/
def gVal : Getter :=
  ⟨"pid", Ty.path (PathSeq.base (Seg.mk "u32" Args.noArgs)), ["self"]⟩

theorem claim_C6_witness :
    (∀ m e, gVal.ty ≠ Ty.ptr m e) ∧
    (gen_probe_read_getter gVal = nonPtrGetterText gVal ∧
     ∀ (α : Type) (read : Except Int α),
       nonPtrGetterDen read = read.toOption ∧
       (∀ v, read = Except.ok v → nonPtrGetterDen read = some v) ∧
       ∀ err, read = Except.error err → nonPtrGetterDen read = none) :=
  ⟨fun _ _ h => Ty.noConfusion h, claim_C6 gVal (fun _ _ h => Ty.noConfusion h)⟩

theorem claim_C7_witness :
    visitFile treeMain = Except.ok (hsMain, treeMainOut) ∧
    (treeMainOut = stripItems treeMain ∧
     itemsLen treeMainOut = itemsLen treeMain ∧
     noForeignMods treeMainOut = true) :=
  ⟨rfl, claim_C7 treeMain hsMain treeMainOut rfl⟩

theorem claim_C9_witness :
    visitFile treeMain = Except.ok (hsMain, treeMainOut) ∧
    (∀ i st, (qualsItems treeMain)[i]? = some st →
      ∃ fnTy names, fnTyOf st = some fnTy ∧ paramNames st = some names ∧
        ∃ x, hsMain[i]? = some x ∧
          strContains x (renderBody fnTy (i + 1) names) = true) :=
  ⟨rfl, claim_C9 treeMain hsMain treeMainOut rfl⟩

theorem claim_C10_witness :
    visitFile treeMain = Except.ok (hsMain, treeMainOut) ∧
    (∃ bs, mapWithOrdBase (qualsItems treeMain) 0 = Except.ok bs ∧
      hsMain = bs.map printkStep ∧ bs.length = hsMain.length ∧
      ∀ i x, hsMain[i]? = some x →
        strContains x ("transmute (" ++ Nat.repr (i + 1) ++ "usize)") = true) :=
  ⟨rfl, claim_C10 treeMain hsMain treeMainOut rfl⟩

end AyaBpf
